import Mathlib

/-
Verification of the portfolio valuation and accounting engine of the
pea-tracker repository (app/portfolio/services.py), against its
natural-language specification.

Shallow embedding conventions:
* Python `Decimal` amounts are modelled as rationals (`ℚ`);
* calendar dates are modelled as integers (day numbers, `ℤ`);
* ticker ids and user ids are naturals (`ℕ`);
* the database tables read by the services (transactions ordered by date,
  price rows, snapshot rows, dividend rows) are passed in explicitly as
  lists and lookup functions.
-/

/-- Transaction side: the `type` column is either `"BUY"` or `"SELL"`. -/
inductive TxType where
  | buy
  | sell
deriving DecidableEq, Repr

/-- A row of the `transactions` table (models.py, class Transaction),
restricted to the columns the portfolio services read. -/
structure Tx where
  tickerId : ℕ
  type : TxType
  quantity : ℚ
  price_per_share : ℚ
  fees : ℚ
  date : ℤ
deriving DecidableEq, Repr

/-- Per-ticker aggregate state of `_compute_holdings` (services.py 35–39):
the defaultdict entry `{"qty", "total_cost", "realized_pnl"}`. -/
structure Holding where
  qty : ℚ
  total_cost : ℚ
  realized_pnl : ℚ
deriving DecidableEq, Repr

/-- Initial defaultdict entry: all three fields `Decimal(0)`. -/
def Holding.init : Holding := ⟨0, 0, 0⟩

/-- One step of the `_compute_holdings` fold (services.py 41–51) on the
entry of the transaction's own ticker.  On BUY, cost and quantity grow;
on SELL, the branch runs only when the current quantity is strictly
positive, in which case the average cost `pru` is removed per sold share
with no comparison of the sold quantity against the held quantity. -/
def applyTx (h : Holding) (tx : Tx) : Holding :=
  match tx.type with
  | TxType.buy =>
      { h with
        total_cost := h.total_cost + tx.quantity * tx.price_per_share + tx.fees
        qty := h.qty + tx.quantity }
  | TxType.sell =>
      if 0 < h.qty then
        let pru := h.total_cost / h.qty
        { qty := h.qty - tx.quantity
          total_cost := h.total_cost - pru * tx.quantity
          realized_pnl := h.realized_pnl + (tx.price_per_share - pru) * tx.quantity - tx.fees }
      else h

/-- One transaction applied to the whole holdings map: only the entry of
`tx.ticker_id` changes. -/
def holdingsStep (m : ℕ → Holding) (tx : Tx) : ℕ → Holding :=
  fun tid => if tid = tx.tickerId then applyTx (m tid) tx else m tid

/-- The empty defaultdict. -/
def initHoldings : ℕ → Holding := fun _ => Holding.init

/-- `_compute_holdings` (services.py 23–53): fold the user's transactions,
already ordered by date, into the per-ticker aggregates. -/
def _compute_holdings (txs : List Tx) : ℕ → Holding :=
  txs.foldl holdingsStep initHoldings

/-- A transaction sequence has no oversell when every SELL's quantity is
at most the quantity then held of that security (tracked with the same
fold state the aggregator uses). -/
def noOversell : (ℕ → Holding) → List Tx → Bool
  | _, [] => true
  | m, tx :: rest =>
      (match tx.type with
       | TxType.sell => decide (tx.quantity ≤ (m tx.tickerId).qty)
       | TxType.buy => true)
      && noOversell (holdingsStep m tx) rest

/-- Column constraints of the data model: quantity, price and fees of a
transaction are nonnegative. -/
def nonnegTx (tx : Tx) : Prop :=
  0 ≤ tx.quantity ∧ 0 ≤ tx.price_per_share ∧ 0 ≤ tx.fees

/-- A holdings map with nonnegative quantity and cost in every entry. -/
def holdingNonneg (m : ℕ → Holding) : Prop :=
  ∀ tid, 0 ≤ (m tid).qty ∧ 0 ≤ (m tid).total_cost

lemma applyTx_nonneg (h : Holding) (tx : Tx) (hq : 0 ≤ h.qty) (hc : 0 ≤ h.total_cost)
    (hx : nonnegTx tx)
    (hsell : tx.type = TxType.sell → tx.quantity ≤ h.qty) :
    0 ≤ (applyTx h tx).qty ∧ 0 ≤ (applyTx h tx).total_cost := by
  obtain ⟨hxq, hxp, hxf⟩ := hx
  cases htype : tx.type with
  | buy =>
      constructor
      · simp only [applyTx, htype]
        exact add_nonneg hq hxq
      · simp only [applyTx, htype]
        exact add_nonneg (add_nonneg hc (mul_nonneg hxq hxp)) hxf
  | sell =>
      by_cases hq0 : 0 < h.qty
      · have hle : tx.quantity ≤ h.qty := hsell htype
        have hne : h.qty ≠ 0 := ne_of_gt hq0
        have h1 : h.total_cost / h.qty * tx.quantity ≤ h.total_cost / h.qty * h.qty :=
          mul_le_mul_of_nonneg_left hle (div_nonneg hc hq0.le)
        rw [div_mul_cancel₀ _ hne] at h1
        constructor
        · simp only [applyTx, htype, if_pos hq0]
          linarith
        · simp only [applyTx, htype, if_pos hq0]
          linarith
      · constructor <;> simp only [applyTx, htype, if_neg hq0] <;> assumption

lemma holdings_fold_nonneg (txs : List Tx) :
    ∀ m : ℕ → Holding, (∀ tx ∈ txs, nonnegTx tx) → noOversell m txs = true →
      holdingNonneg m → holdingNonneg (txs.foldl holdingsStep m) := by
  induction txs with
  | nil => intro m _ _ hm; exact hm
  | cons tx rest ih =>
      intro m hn ho hm
      simp only [noOversell, Bool.and_eq_true] at ho
      obtain ⟨ho1, ho2⟩ := ho
      rw [List.foldl_cons]
      refine ih (holdingsStep m tx) (fun t ht => hn t (List.mem_cons_of_mem _ ht)) ho2 ?_
      intro tid
      unfold holdingsStep
      by_cases hti : tid = tx.tickerId
      · subst hti
        rw [if_pos rfl]
        refine applyTx_nonneg _ tx (hm _).1 (hm _).2 (hn tx (List.mem_cons_self _ _)) ?_
        intro hts
        rw [hts] at ho1
        exact of_decide_eq_true ho1
      · rw [if_neg hti]
        exact hm tid

lemma noOversell_take (txs : List Tx) :
    ∀ (m : ℕ → Holding) (n : ℕ), noOversell m txs = true → noOversell m (txs.take n) = true := by
  induction txs with
  | nil => intro m n _; simp [noOversell]
  | cons tx rest ih =>
      intro m n ho
      cases n with
      | zero => simp [noOversell]
      | succ k =>
          simp only [List.take_succ_cons, noOversell, Bool.and_eq_true] at ho ⊢
          exact ⟨ho.1, ih _ k ho.2⟩

/-- C4: for every transaction sequence with nonnegative quantities, prices and
fees and no oversell (each sell's quantity is at most the quantity then held of
that security), after every prefix of the sequence the `_compute_holdings`
state has `0 ≤ qty` and `0 ≤ total_cost` for every security. -/
theorem average_cost_invariant (txs : List Tx)
    (hn : ∀ tx ∈ txs, nonnegTx tx)
    (ho : noOversell initHoldings txs = true) :
    ∀ n tid : ℕ,
      0 ≤ (_compute_holdings (txs.take n) tid).qty ∧
      0 ≤ (_compute_holdings (txs.take n) tid).total_cost := by
  intro n tid
  exact holdings_fold_nonneg (txs.take n) initHoldings
    (fun tx ht => hn tx (List.take_subset n txs ht))
    (noOversell_take txs initHoldings n ho)
    (fun _ => ⟨le_refl 0, le_refl 0⟩) tid

/-- Witness for `average_cost_invariant` on a concrete buy-then-partial-sell
sequence, after the full two-transaction prefix. -/
theorem average_cost_invariant_witness :
    (∀ tx ∈ [(⟨0, TxType.buy, 10, 100, 0, 1⟩ : Tx), ⟨0, TxType.sell, 5, 120, 0, 2⟩], nonnegTx tx) ∧
    noOversell initHoldings [⟨0, TxType.buy, 10, 100, 0, 1⟩, ⟨0, TxType.sell, 5, 120, 0, 2⟩] = true ∧
    (0 ≤ (_compute_holdings
        ([(⟨0, TxType.buy, 10, 100, 0, 1⟩ : Tx), ⟨0, TxType.sell, 5, 120, 0, 2⟩].take 2) 0).qty ∧
     0 ≤ (_compute_holdings
        ([(⟨0, TxType.buy, 10, 100, 0, 1⟩ : Tx), ⟨0, TxType.sell, 5, 120, 0, 2⟩].take 2) 0).total_cost) := by
  have h1 : ∀ tx ∈ [(⟨0, TxType.buy, 10, 100, 0, 1⟩ : Tx), ⟨0, TxType.sell, 5, 120, 0, 2⟩],
      nonnegTx tx := by
    intro tx htx
    simp only [List.mem_cons, List.not_mem_nil, or_false] at htx
    rcases htx with h | h <;> subst h <;> exact ⟨by norm_num, by norm_num, by norm_num⟩
  have h2 : noOversell initHoldings
      [⟨0, TxType.buy, 10, 100, 0, 1⟩, ⟨0, TxType.sell, 5, 120, 0, 2⟩] = true := by
    norm_num [noOversell, holdingsStep, applyTx, initHoldings, Holding.init]
  exact ⟨h1, h2, average_cost_invariant _ h1 h2 2 0⟩

/-- C2 counterexample: a sell of 10 from an empty position is an oversell yet
the `_compute_holdings` fold leaves the holding unchanged (the sell branch is
skipped because the held quantity is not strictly positive), so the resulting
quantity is 0, not negative. -/
theorem oversell_from_empty_is_skipped :
    (_compute_holdings [⟨0, TxType.sell, 10, 5, 0, 1⟩]) 0 = Holding.init ∧
    ¬ ((_compute_holdings [⟨0, TxType.sell, 10, 5, 0, 1⟩]) 0).qty < 0 := by
  constructor
  · norm_num [_compute_holdings, holdingsStep, applyTx, initHoldings, Holding.init]
  · norm_num [_compute_holdings, holdingsStep, applyTx, initHoldings, Holding.init]

/-- C2 (amended): whenever the currently held quantity is strictly positive,
the sell branch of the `_compute_holdings` fold applies its arithmetic without
comparing the sold quantity to the held quantity, so a sell exceeding a
strictly positive held quantity drives the quantity negative; a sell reaching
the fold with a non-positive held quantity is skipped, leaving the holding
unchanged. -/
theorem oversell_unclamped_when_positive (h : Holding) (tx : Tx)
    (htype : tx.type = TxType.sell) :
    (0 < h.qty → (applyTx h tx).qty = h.qty - tx.quantity) ∧
    (¬ 0 < h.qty → applyTx h tx = h) ∧
    (0 < h.qty → h.qty < tx.quantity → (applyTx h tx).qty < 0) := by
  refine ⟨fun hq => ?_, fun hq => ?_, fun hq hlt => ?_⟩
  · simp [applyTx, htype, hq]
  · simp [applyTx, htype, hq]
  · simp only [applyTx, htype, if_pos hq]
    show h.qty - tx.quantity < 0
    linarith

/-- Witness for `oversell_unclamped_when_positive`: selling 10 out of a held 5
leaves quantity −5. -/
theorem oversell_unclamped_when_positive_witness :
    (0 : ℚ) < 5 ∧ (5 : ℚ) < 10 ∧
    (applyTx ⟨5, 500, 0⟩ ⟨0, TxType.sell, 10, 7, 0, 3⟩).qty < 0 :=
  ⟨by norm_num, by norm_num,
    (oversell_unclamped_when_positive ⟨5, 500, 0⟩ ⟨0, TxType.sell, 10, 7, 0, 3⟩ rfl).2.2
      (by norm_num) (by norm_num)⟩

/-- Per-ticker state of the inline per-day fold of `compute_snapshots`
(services.py 355): the defaultdict entry `{"qty", "cost"}`. -/
structure DayHolding where
  qty : ℚ
  cost : ℚ
deriving DecidableEq, Repr

/-- Initial defaultdict entry of the per-day fold. -/
def DayHolding.init : DayHolding := ⟨0, 0⟩

/-- One step of the inline per-day fold (services.py 359–367): same
weighted-average arithmetic as `applyTx`, without realized-P&L tracking. -/
def applyTxDay (h : DayHolding) (tx : Tx) : DayHolding :=
  match tx.type with
  | TxType.buy =>
      { cost := h.cost + tx.quantity * tx.price_per_share + tx.fees
        qty := h.qty + tx.quantity }
  | TxType.sell =>
      if 0 < h.qty then
        let pru := h.cost / h.qty
        { cost := h.cost - pru * tx.quantity
          qty := h.qty - tx.quantity }
      else h

/-- One transaction applied to the per-day holdings map. -/
def dayStep (m : ℕ → DayHolding) (tx : Tx) : ℕ → DayHolding :=
  fun tid => if tid = tx.tickerId then applyTxDay (m tid) tx else m tid

/-- The empty per-day defaultdict. -/
def initDayHoldings : ℕ → DayHolding := fun _ => DayHolding.init

/-- The inline per-day loop of `compute_snapshots` (services.py 356–367):
folds the date-sorted transactions, breaking at the first transaction whose
date exceeds the current day `d`. -/
def holdingsAsOf (d : ℤ) : List Tx → (ℕ → DayHolding) → (ℕ → DayHolding)
  | [], m => m
  | tx :: rest, m => if d < tx.date then m else holdingsAsOf d rest (dayStep m tx)

/-- Projection of the full aggregator state onto the per-day state. -/
def projHolding (h : Holding) : DayHolding := ⟨h.qty, h.total_cost⟩

lemma proj_applyTx (h : Holding) (tx : Tx) :
    projHolding (applyTx h tx) = applyTxDay (projHolding h) tx := by
  cases htype : tx.type with
  | buy => simp [projHolding, applyTx, applyTxDay, htype]
  | sell =>
      by_cases hq : 0 < h.qty
      · simp [projHolding, applyTx, applyTxDay, htype, hq]
      · simp [projHolding, applyTx, applyTxDay, htype, hq]

lemma proj_foldl (txs : List Tx) :
    ∀ (m₁ : ℕ → Holding) (m₂ : ℕ → DayHolding),
      (∀ tid, projHolding (m₁ tid) = m₂ tid) →
      ∀ tid, projHolding ((txs.foldl holdingsStep m₁) tid) = (txs.foldl dayStep m₂) tid := by
  induction txs with
  | nil => intro m₁ m₂ hm tid; exact hm tid
  | cons tx rest ih =>
      intro m₁ m₂ hm tid
      rw [List.foldl_cons, List.foldl_cons]
      refine ih (holdingsStep m₁ tx) (dayStep m₂ tx) ?_ tid
      intro t
      unfold holdingsStep dayStep
      by_cases ht : t = tx.tickerId
      · rw [if_pos ht, if_pos ht, proj_applyTx, hm t]
      · rw [if_neg ht, if_neg ht]
        exact hm t

lemma holdingsAsOf_eq_foldl_takeWhile (d : ℤ) (txs : List Tx) :
    ∀ m : ℕ → DayHolding,
      holdingsAsOf d txs m = (txs.takeWhile (fun tx => decide (tx.date ≤ d))).foldl dayStep m := by
  induction txs with
  | nil => intro m; simp [holdingsAsOf]
  | cons tx rest ih =>
      intro m
      by_cases hd : d < tx.date
      · have : decide (tx.date ≤ d) = false := by
          simp only [decide_eq_false_iff_not, not_le]
          exact hd
        simp [holdingsAsOf, hd, List.takeWhile_cons, this]
      · have hle : tx.date ≤ d := not_lt.mp hd
        have : decide (tx.date ≤ d) = true := by simpa using hle
        simp [holdingsAsOf, hd, List.takeWhile_cons, this, ih]

lemma takeWhile_eq_filter_of_dateSorted (d : ℤ) (txs : List Tx)
    (hsorted : txs.Pairwise (fun a b => a.date ≤ b.date)) :
    txs.takeWhile (fun tx => decide (tx.date ≤ d))
      = txs.filter (fun tx => decide (tx.date ≤ d)) := by
  induction txs with
  | nil => simp
  | cons tx rest ih =>
      rw [List.pairwise_cons] at hsorted
      obtain ⟨hhead, htail⟩ := hsorted
      by_cases hle : tx.date ≤ d
      · have hc : decide (tx.date ≤ d) = true := by simpa using hle
        simp [List.takeWhile_cons, List.filter_cons, hc, ih htail]
      · have hc : decide (tx.date ≤ d) = false := by simpa using hle
        have hnil : rest.filter (fun tx => decide (tx.date ≤ d)) = [] := by
          rw [List.filter_eq_nil_iff]
          intro b hb
          simp only [decide_eq_true_eq]
          intro hbd
          exact hle (le_trans (hhead b hb) hbd)
        simp [List.takeWhile_cons, List.filter_cons, hc, hnil]

/-- C3: on a date-sorted transaction list, the early-exiting inline per-day
fold of `compute_snapshots` yields, for every security, the same quantity and
cost basis as `_compute_holdings` applied to the sub-list of transactions
dated at most the current day. -/
theorem snapshot_fold_refines_holdings (txs : List Tx) (d : ℤ)
    (hsorted : txs.Pairwise (fun a b => a.date ≤ b.date)) :
    ∀ tid : ℕ,
      (holdingsAsOf d txs initDayHoldings tid).qty
        = (_compute_holdings (txs.filter (fun tx => decide (tx.date ≤ d))) tid).qty ∧
      (holdingsAsOf d txs initDayHoldings tid).cost
        = (_compute_holdings (txs.filter (fun tx => decide (tx.date ≤ d))) tid).total_cost := by
  intro tid
  have hproj : ∀ t : ℕ,
      projHolding ((txs.filter (fun tx => decide (tx.date ≤ d))).foldl holdingsStep initHoldings t)
        = ((txs.filter (fun tx => decide (tx.date ≤ d))).foldl dayStep initDayHoldings) t :=
    proj_foldl _ initHoldings initDayHoldings (fun _ => rfl)
  have hfold : holdingsAsOf d txs initDayHoldings
      = (txs.filter (fun tx => decide (tx.date ≤ d))).foldl dayStep initDayHoldings := by
    rw [holdingsAsOf_eq_foldl_takeWhile, takeWhile_eq_filter_of_dateSorted d txs hsorted]
  constructor
  · rw [hfold, _compute_holdings, ← hproj tid]
    rfl
  · rw [hfold, _compute_holdings, ← hproj tid]
    rfl

/-- Witness for `snapshot_fold_refines_holdings` on a concrete sorted pair of
transactions, as of day 1. -/
theorem snapshot_fold_refines_holdings_witness :
    (holdingsAsOf 1 [(⟨0, TxType.buy, 2, 50, 0, 1⟩ : Tx), ⟨0, TxType.sell, 1, 60, 0, 2⟩]
        initDayHoldings 0).qty
      = (_compute_holdings
          ([(⟨0, TxType.buy, 2, 50, 0, 1⟩ : Tx), ⟨0, TxType.sell, 1, 60, 0, 2⟩].filter
            (fun tx => decide (tx.date ≤ 1))) 0).qty ∧
    (holdingsAsOf 1 [(⟨0, TxType.buy, 2, 50, 0, 1⟩ : Tx), ⟨0, TxType.sell, 1, 60, 0, 2⟩]
        initDayHoldings 0).cost
      = (_compute_holdings
          ([(⟨0, TxType.buy, 2, 50, 0, 1⟩ : Tx), ⟨0, TxType.sell, 1, 60, 0, 2⟩].filter
            (fun tx => decide (tx.date ≤ 1))) 0).total_cost :=
  snapshot_fold_refines_holdings
    [⟨0, TxType.buy, 2, 50, 0, 1⟩, ⟨0, TxType.sell, 1, 60, 0, 2⟩] 1 (by decide) 0

/-- A computed snapshot record (services.py 378–385): the dict appended to
`snapshots_to_upsert` for one calendar day. -/
structure SnapRow where
  date : ℤ
  total_value : ℚ
  total_invested : ℚ
  total_pnl : ℚ
  total_pnl_pct : ℚ
deriving DecidableEq, Repr

/-- LOCF update at one day (services.py 346–349): for each of the user's
tickers, if a price row exists for this exact date, it becomes the last
known price; otherwise the previous value is kept. -/
def updateLastKnown (priceMap : ℕ → ℤ → Option ℚ) (d : ℤ) (tids : List ℕ)
    (lkp : ℕ → Option ℚ) : ℕ → Option ℚ :=
  fun tid =>
    if tid ∈ tids then
      match priceMap tid d with
      | some p => some p
      | none => lkp tid
    else lkp tid

/-- Accumulation of `total_value` and `total_invested` over the per-day
holdings (services.py 369–373).  The Python code iterates over the entries of
the holdings defaultdict; `tids` is the list of its keys (the tickers touched
by the processed transactions), each key occurring once.  A missing last
known price defaults to `Decimal(0)`. -/
def dayTotals (tids : List ℕ) (hold : ℕ → DayHolding) (lkp : ℕ → Option ℚ) : ℚ × ℚ :=
  tids.foldl
    (fun acc tid =>
      let h := hold tid
      if 0 < h.qty then
        (acc.1 + h.qty * (lkp tid).getD 0, acc.2 + h.cost)
      else acc)
    (0, 0)

/-- Keys of the per-day holdings defaultdict: the tickers of the transactions
processed before the early exit at day `d`. -/
def touchedTickers (d : ℤ) (txs : List Tx) : List ℕ :=
  ((txs.takeWhile (fun tx => decide (tx.date ≤ d))).map Tx.tickerId).dedup

/-- The calendar days walked by the `while current <= end` loop
(services.py 344, 387), from `start` to `today` inclusive. -/
def dateRange (start today : ℤ) : List ℤ :=
  (List.range (today - start + 1).toNat).map (fun i => start + (i : ℤ))

/-- The day-by-day loop of `compute_snapshots` (services.py 344–387): for each
day, update the last known prices (LOCF), recompute holdings as of the day
with the early-exiting fold, and emit the snapshot record. -/
def snapDays (txs : List Tx) (priceMap : ℕ → ℤ → Option ℚ) (tids : List ℕ) :
    List ℤ → (ℕ → Option ℚ) → List SnapRow
  | [], _ => []
  | d :: ds, lkp =>
      let lkpNext := updateLastKnown priceMap d tids lkp
      let hold := holdingsAsOf d txs initDayHoldings
      let t := dayTotals (touchedTickers d txs) hold lkpNext
      let pct := if 0 < t.2 then (t.1 / t.2 - 1) * 100 else 0
      { date := d, total_value := t.1, total_invested := t.2,
        total_pnl := t.1 - t.2, total_pnl_pct := pct }
        :: snapDays txs priceMap tids ds lkpNext

/-- `compute_snapshots` (services.py 268–387), up to the records it computes.
`priceMap` models the prefetched `{(ticker_id, date): close}` lookup and
`seed` the pre-seeded most recent close strictly before `start` per ticker;
`from_date = none` starts at the first transaction's date (the list is
ordered by date).  The persistence of the records is modelled separately by
`upsertSnapshots`. -/
def compute_snapshots (txs : List Tx) (priceMap : ℕ → ℤ → Option ℚ)
    (seed : ℕ → Option ℚ) (from_date : Option ℤ) (today : ℤ) : List SnapRow :=
  match txs with
  | [] => []
  | t0 :: _ =>
      let start := from_date.getD t0.date
      if today < start then []
      else snapDays txs priceMap ((txs.map Tx.tickerId).dedup) (dateRange start today) seed

/-- C5: with one security bought at quantity 1 on day 1 of the range
1–5 and daily prices only on day 1 (close 10) and day 5 (close 12),
`compute_snapshots` carries the day-1 value 10 forward through days 2–4 and
values day 5 at 12. -/
theorem locf_forward_fill :
    (compute_snapshots [⟨0, TxType.buy, 1, 10, 0, 1⟩]
        (fun tid d => if tid = 0 ∧ d = 1 then some 10
          else if tid = 0 ∧ d = 5 then some 12 else none)
        (fun _ => none) none 5).map (fun r => (r.date, r.total_value))
      = [(1, 10), (2, 10), (3, 10), (4, 10), (5, 12)] := by
  have hrange : dateRange 1 5 = [1, 2, 3, 4, 5] := rfl
  norm_num [compute_snapshots, hrange, snapDays, updateLastKnown, dayTotals,
    touchedTickers, holdingsAsOf, dayStep, applyTxDay, initDayHoldings, DayHolding.init,
    List.dedup]

/-- Decision logic of `ensure_snapshots_uptodate` (services.py 406–459):
given the user's first transaction date, today, and the dates of the user's
existing snapshot rows, returns the from-date passed to `compute_snapshots`,
or `none` when no recompute is triggered.  The expected set is every day of
`[first_date, today]`; when some are missing the recompute starts at the
earliest missing day; otherwise a recompute from today is issued only when
today's row is missing. -/
def ensure_snapshots_uptodate (firstDate today : ℤ) (existingDates : List ℤ) : Option ℤ :=
  if today < firstDate then none
  else
    let expected := dateRange firstDate today
    let missing := expected.filter (fun d => decide (d ∉ existingDates))
    match missing with
    | [] => if today ∈ existingDates then none else some today
    | d :: rest => some (rest.foldl min d)

/-- C1: evaluation of the gap reconciler at a state where the snapshot range
is complete — first transaction on day 0, today is day 2, and snapshot rows
exist for days 0, 1 and 2.  No recompute at all is triggered: today's row is
not refreshed, although the function's own docstring and the specification
say it always is. -/
theorem gap_reconciler_skips_existing_today :
    ensure_snapshots_uptodate 0 2 [0, 1, 2] = none := by decide

/-- A row of the `portfolio_snapshots` table (models.py, class
PortfolioSnapshot), restricted to the columns `compute_snapshots` writes;
the table carries a unique constraint on `(user_id, date)`. -/
structure SnapDbRow where
  user_id : ℕ
  date : ℤ
  total_value : ℚ
  total_invested : ℚ
  total_pnl : ℚ
  total_pnl_pct : ℚ
deriving DecidableEq, Repr

/-- Upsert of one computed record (services.py 390–400): the first row with
matching `(user_id, date)` has its four numeric fields overwritten in place;
when none matches, a new row is inserted. -/
def upsertSnapshot : List SnapDbRow → ℕ → SnapRow → List SnapDbRow
  | [], u, s => [⟨u, s.date, s.total_value, s.total_invested, s.total_pnl, s.total_pnl_pct⟩]
  | r :: rest, u, s =>
      if r.user_id = u ∧ r.date = s.date then
        { r with total_value := s.total_value, total_invested := s.total_invested,
                 total_pnl := s.total_pnl, total_pnl_pct := s.total_pnl_pct } :: rest
      else r :: upsertSnapshot rest u s

/-- The bulk upsert loop over all computed records (services.py 389–400). -/
def upsertSnapshots (table : List SnapDbRow) (u : ℕ) (rows : List SnapRow) : List SnapDbRow :=
  rows.foldl (fun t s => upsertSnapshot t u s) table

/-- The uniqueness key of a snapshot row. -/
def snapKey (r : SnapDbRow) : ℕ × ℤ := (r.user_id, r.date)

/-- At most one snapshot row per `(user, date)`. -/
def snapKeysNodup (t : List SnapDbRow) : Prop := (t.map snapKey).Nodup

lemma upsertSnapshot_map_key (u : ℕ) (s : SnapRow) :
    ∀ t : List SnapDbRow,
      (upsertSnapshot t u s).map snapKey
        = if (u, s.date) ∈ t.map snapKey then t.map snapKey
          else t.map snapKey ++ [(u, s.date)] := by
  intro t
  induction t with
  | nil => simp [upsertSnapshot, snapKey]
  | cons r rest ih =>
      by_cases hr : r.user_id = u ∧ r.date = s.date
      · have hkey : snapKey r = (u, s.date) := by
          simp [snapKey, hr.1, hr.2]
        have hm : (u, s.date) ∈ (r :: rest).map snapKey := by
          rw [List.map_cons, hkey]
          exact List.mem_cons_self _ _
        rw [if_pos hm]
        simp only [upsertSnapshot, if_pos hr, List.map_cons]
        simp [snapKey]
      · have hkey : ¬ (u, s.date) = snapKey r := by
          intro h
          rw [snapKey, Prod.mk.injEq] at h
          exact hr ⟨h.1.symm, h.2.symm⟩
        simp only [upsertSnapshot, if_neg hr, List.map_cons, ih, List.mem_cons]
        by_cases hm : (u, s.date) ∈ rest.map snapKey
        · rw [if_pos hm, if_pos (Or.inr hm)]
        · rw [if_neg hm, if_neg ?nc, List.cons_append]
          case nc =>
            rintro (h | h)
            · exact hkey h
            · exact hm h

lemma upsertSnapshot_nodup (t : List SnapDbRow) (u : ℕ) (s : SnapRow)
    (h : snapKeysNodup t) : snapKeysNodup (upsertSnapshot t u s) := by
  unfold snapKeysNodup at h ⊢
  rw [upsertSnapshot_map_key]
  by_cases hm : (u, s.date) ∈ t.map snapKey
  · rw [if_pos hm]; exact h
  · rw [if_neg hm]
    simp [List.nodup_append, h, hm]

lemma upsertSnapshots_nodup (rows : List SnapRow) :
    ∀ (t : List SnapDbRow) (u : ℕ), snapKeysNodup t → snapKeysNodup (upsertSnapshots t u rows) := by
  induction rows with
  | nil => intro t u h; exact h
  | cons s rest ih =>
      intro t u h
      rw [upsertSnapshots, List.foldl_cons]
      exact ih _ u (upsertSnapshot_nodup t u s h)

/-- C7: the bulk upsert of a `compute_snapshots` run preserves the
at-most-one-row-per-`(user, date)` invariant of the snapshot table: each
computed day overwrites an existing row in place or inserts a fresh key, so
no run creates a duplicate. -/
theorem snapshot_upsert_no_duplicates (table : List SnapDbRow) (u : ℕ)
    (txs : List Tx) (priceMap : ℕ → ℤ → Option ℚ) (seed : ℕ → Option ℚ)
    (from_date : Option ℤ) (today : ℤ)
    (h : snapKeysNodup table) :
    snapKeysNodup
      (upsertSnapshots table u (compute_snapshots txs priceMap seed from_date today)) :=
  upsertSnapshots_nodup _ table u h

/-- Witness for `snapshot_upsert_no_duplicates`: a one-row table, one
transaction, a two-day recompute overwriting the existing day-0 row and
inserting day 1. -/
theorem snapshot_upsert_no_duplicates_witness :
    snapKeysNodup
      (upsertSnapshots [⟨1, 0, 5, 3, 2, 0⟩] 1
        (compute_snapshots [⟨0, TxType.buy, 1, 10, 0, 0⟩]
          (fun _ _ => none) (fun _ => none) none 1)) :=
  snapshot_upsert_no_duplicates [⟨1, 0, 5, 3, 2, 0⟩] 1
    [⟨0, TxType.buy, 1, 10, 0, 0⟩] (fun _ _ => none) (fun _ => none) none 1
    (by simp [snapKeysNodup])

/-- A row of the `dividends` table (models.py, class Dividend). -/
structure DividendRow where
  tickerId : ℕ
  date : ℤ
  amount_per_share : ℚ
deriving DecidableEq, Repr

/-- Checkpoint construction of `_compute_total_dividends` (services.py
237–244): walk the date-ordered transactions, keep a running cumulative
quantity per ticker (BUY adds, SELL subtracts, with no bounds check), and
append one `(date, cumulative_qty)` checkpoint per transaction to that
ticker's list. -/
def buildCheckpoints : List Tx → (ℕ → List (ℤ × ℚ)) → (ℕ → ℚ) → (ℕ → List (ℤ × ℚ))
  | [], cum, _ => cum
  | tx :: rest, cum, running =>
      let q := match tx.type with
        | TxType.buy => running tx.tickerId + tx.quantity
        | TxType.sell => running tx.tickerId - tx.quantity
      buildCheckpoints rest
        (fun tid => if tid = tx.tickerId then cum tid ++ [(tx.date, q)] else cum tid)
        (fun tid => if tid = tx.tickerId then q else running tid)

/-- `bisect_right` over the sorted checkpoint dates (services.py 254): the
number of checkpoint dates at most `d`, i.e. the insertion point of `d`. -/
def bisectIdx (dates : List ℤ) (d : ℤ) : ℕ :=
  (dates.filter (fun e => decide (e ≤ d))).length

/-- `_compute_total_dividends` (services.py 201–261): for each dividend, look
up the cumulative quantity at the checkpoint with the greatest date at most
the dividend's date (`bisect_right − 1`); a ticker with no checkpoints or a
dividend dated before the first checkpoint is skipped, and the quantity
contributes `qty * amount_per_share` only when strictly positive. -/
def _compute_total_dividends (txs : List Tx) (divs : List DividendRow) : ℚ :=
  if divs.isEmpty then 0
  else
    let cum := buildCheckpoints txs (fun _ => []) (fun _ => 0)
    divs.foldl
      (fun total dv =>
        let entries := cum dv.tickerId
        if entries.isEmpty then total
        else
          let idx := bisectIdx (entries.map Prod.fst) dv.date
          if idx = 0 then total
          else
            match entries[idx - 1]? with
            | none => total
            | some e => if 0 < e.2 then total + e.2 * dv.amount_per_share else total)
      0

/-- C6: dividend entitlement timing.  Buying 100 shares on day 1 entitles the
holder to 100 × €1 for a dividend dated day 2 (the checkpoint with the
greatest date ≤ 2 carries quantity 100, which is positive); the same dividend
dated day 0 — before the first purchase — contributes 0, as does a dividend
on a ticker with no transactions at all. -/
theorem dividend_entitlement_timing :
    _compute_total_dividends [⟨0, TxType.buy, 100, 20, 0, 1⟩] [⟨0, 2, 1⟩] = 100 ∧
    _compute_total_dividends [⟨0, TxType.buy, 100, 20, 0, 1⟩] [⟨0, 0, 1⟩] = 0 ∧
    _compute_total_dividends [⟨0, TxType.buy, 100, 20, 0, 1⟩] [⟨1, 2, 1⟩] = 0 := by
  refine ⟨?_, ?_, ?_⟩ <;>
    norm_num [_compute_total_dividends, buildCheckpoints, bisectIdx]

/-- Input of the position-building loop of `get_positions` (services.py
119–153), for one ticker of the holdings map: the aggregate fields, whether
the `tickers` table has the row (`tickers_map.get`), and the two most recent
price rows (`latest_close`/`latest_date` at rank 1, `prev_close` at rank 2),
each `none` when absent. -/
structure PosEntry where
  tickerId : ℕ
  qty : ℚ
  total_cost : ℚ
  realized_pnl : ℚ
  tickerExists : Bool
  latest_close : Option ℚ
  latest_date : Option ℤ
  prev_close : Option ℚ
deriving DecidableEq, Repr

/-- A position dict appended by `get_positions` (services.py 140–153). -/
structure Position where
  tickerId : ℕ
  quantity : ℚ
  pru : ℚ
  current_price : Option ℚ
  price_date : Option ℤ
  market_value : ℚ
  invested : ℚ
  unrealized_pnl : ℚ
  unrealized_pnl_pct : ℚ
  realized_pnl : ℚ
  daily_change : ℚ
  weight : ℚ
deriving DecidableEq, Repr

/-- Python truthiness of an optional Decimal: `None` and `Decimal(0)` are
falsy (the code writes `if current_price`, `if prev_close`). -/
def truthy : Option ℚ → Bool
  | none => false
  | some p => decide (¬ p = 0)

/-- The body of the position loop (services.py 127–153) for one entry: the
price fields, average cost (`pru`), market value, P&L fields and daily
change, with weight initialised to 0.  `prev_close` falls back to the latest
close when no rank-2 price row exists. -/
def mkPosition (e : PosEntry) : Position :=
  let current_price := e.latest_close
  let prev_close := match e.prev_close with
    | some x => some x
    | none => current_price
  let pru := if 0 < e.qty then e.total_cost / e.qty else 0
  { tickerId := e.tickerId
    quantity := e.qty
    pru := pru
    current_price := current_price
    price_date := e.latest_date
    market_value := if truthy current_price then e.qty * current_price.getD 0 else 0
    invested := e.total_cost
    unrealized_pnl := if truthy current_price then (current_price.getD 0 - pru) * e.qty else 0
    unrealized_pnl_pct :=
      if truthy current_price && decide (0 < pru) then (current_price.getD 0 / pru - 1) * 100
      else 0
    realized_pnl := e.realized_pnl
    daily_change :=
      if truthy current_price && truthy prev_close then
        (current_price.getD 0 - prev_close.getD 0) / prev_close.getD 0 * 100
      else 0
    weight := 0 }

/-- Open positions (services.py 67): entries whose quantity exceeds the
`Decimal("0.0001")` dust epsilon. -/
def openEntries (entries : List PosEntry) : List PosEntry :=
  entries.filter (fun e => decide ((1 : ℚ) / 10000 < e.qty))

/-- `get_positions` (services.py 56–162): keep open entries (returning `[]`
when there are none), drop entries whose ticker row is missing, build the
position dicts, assign each weight as `market_value / total * 100` when the
total portfolio value is positive (weights stay 0 otherwise), and sort by
weight descending (stable). -/
def get_positions (entries : List PosEntry) : List Position :=
  let opens := openEntries entries
  if opens.isEmpty then []
  else
    let ps := (opens.filter (fun e => e.tickerExists)).map mkPosition
    let total := (ps.map Position.market_value).sum
    let weighted := ps.map (fun p =>
      if 0 < total then { p with weight := p.market_value / total * 100 } else p)
    weighted.mergeSort (fun a b => decide (b.weight ≤ a.weight))

/-- The total portfolio market value accumulated by the position loop
(services.py 119, 138): the sum of the built positions' market values. -/
def positionsTotalValue (entries : List PosEntry) : ℚ :=
  ((((openEntries entries).filter (fun e => e.tickerExists)).map mkPosition).map
    Position.market_value).sum

example :
    (get_positions [⟨0, 2, 100, 0, true, some 30, some 9, some 25⟩,
      ⟨1, 2, 100, 0, true, some 10, some 9, none⟩]).map Position.weight = [75, 25] := by
  norm_num [get_positions, openEntries, mkPosition, truthy, positionsTotalValue,
    List.mergeSort]

lemma sum_map_div_mul (l : List Position) (t : ℚ) :
    (l.map (fun p => p.market_value / t * 100)).sum
      = (l.map Position.market_value).sum / t * 100 := by
  induction l with
  | nil => simp
  | cons x xs ih =>
      simp only [List.map_cons, List.sum_cons, ih]
      ring

lemma mergeSort_map_weight_sum (le : Position → Position → Bool) (w : List Position) :
    ((w.mergeSort le).map Position.weight).sum = (w.map Position.weight).sum :=
  ((List.mergeSort_perm w le).map Position.weight).sum_eq

lemma get_positions_eq (entries : List PosEntry)
    (h : ¬ (openEntries entries).isEmpty = true) :
    get_positions entries
      = ((((openEntries entries).filter (fun e => e.tickerExists)).map mkPosition).map
          (fun p => if 0 < positionsTotalValue entries then
            { p with weight := p.market_value / positionsTotalValue entries * 100 } else p)).mergeSort
          (fun a b => decide (b.weight ≤ a.weight)) := by
  simp only [get_positions, positionsTotalValue]
  rw [if_neg h]

/-- C8: normalization of position weights in `get_positions` — when the total
portfolio market value is positive the returned weights sum to exactly 100,
and when it is zero every returned position keeps weight 0. -/
theorem weight_normalization (entries : List PosEntry) :
    (0 < positionsTotalValue entries →
      ((get_positions entries).map Position.weight).sum = 100) ∧
    (positionsTotalValue entries = 0 →
      ∀ p ∈ get_positions entries, p.weight = 0) := by
  by_cases hempty : (openEntries entries).isEmpty = true
  · have hnil : get_positions entries = [] := by
      simp [get_positions, hempty]
    have htot0 : positionsTotalValue entries = 0 := by
      rw [List.isEmpty_iff] at hempty
      simp [positionsTotalValue, hempty]
    constructor
    · intro hpos
      rw [htot0] at hpos
      exact absurd hpos (lt_irrefl 0)
    · intro _ p hp
      rw [hnil] at hp
      exact absurd hp (List.not_mem_nil p)
  · constructor
    · intro hpos
      rw [get_positions_eq entries hempty, mergeSort_map_weight_sum, List.map_map]
      have hfun : (Position.weight ∘ fun p =>
          if 0 < positionsTotalValue entries then
            { p with weight := p.market_value / positionsTotalValue entries * 100 } else p)
          = fun p => p.market_value / positionsTotalValue entries * 100 := by
        funext p
        simp [Function.comp, if_pos hpos]
      rw [hfun, sum_map_div_mul]
      have hT : ((((openEntries entries).filter (fun e => e.tickerExists)).map mkPosition).map
          Position.market_value).sum = positionsTotalValue entries := rfl
      rw [hT, div_self (ne_of_gt hpos)]
      norm_num
    · intro h0 p hp
      rw [get_positions_eq entries hempty, List.mem_mergeSort, List.mem_map] at hp
      obtain ⟨q, hq, hqe⟩ := hp
      rw [if_neg (by rw [h0]; exact lt_irrefl 0)] at hqe
      subst hqe
      rw [List.mem_map] at hq
      obtain ⟨e, _, he⟩ := hq
      subst he
      rfl

/-- Witness for `weight_normalization`: a single open priced position carries
the whole portfolio, so its weight is the full 100. -/
theorem weight_normalization_witness :
    0 < positionsTotalValue [⟨0, 1, 50, 0, true, some 20, some 9, none⟩] ∧
    ((get_positions [⟨0, 1, 50, 0, true, some 20, some 9, none⟩]).map Position.weight).sum
      = 100 :=
  ⟨by norm_num [positionsTotalValue, openEntries, mkPosition, truthy],
   (weight_normalization [⟨0, 1, 50, 0, true, some 20, some 9, none⟩]).1
     (by norm_num [positionsTotalValue, openEntries, mkPosition, truthy])⟩

/-- C9: an open position on a security with no price rows (no latest close)
is still returned by `get_positions` — no error path exists — and its market
value, unrealized P&L, unrealized P&L percent and daily change are all 0. -/
theorem missing_price_valid_zero_position (entries : List PosEntry) (e : PosEntry)
    (he : e ∈ entries) (hq : (1 : ℚ) / 10000 < e.qty) (ht : e.tickerExists = true)
    (hp : e.latest_close = none) :
    ∃ p ∈ get_positions entries,
      p.tickerId = e.tickerId ∧ p.market_value = 0 ∧ p.unrealized_pnl = 0 ∧
      p.unrealized_pnl_pct = 0 ∧ p.daily_change = 0 := by
  have hopen : e ∈ openEntries entries := by
    rw [openEntries, List.mem_filter]
    exact ⟨he, by simpa using hq⟩
  have hempty : ¬ (openEntries entries).isEmpty = true := by
    rw [List.isEmpty_iff]
    intro h
    rw [h] at hopen
    exact List.not_mem_nil e hopen
  have hkeep : e ∈ (openEntries entries).filter (fun e => e.tickerExists) := by
    rw [List.mem_filter]
    exact ⟨hopen, ht⟩
  have hmem : mkPosition e
      ∈ ((openEntries entries).filter (fun e => e.tickerExists)).map mkPosition :=
    List.mem_map_of_mem mkPosition hkeep
  have h1 : (mkPosition e).tickerId = e.tickerId := rfl
  have h2 : (mkPosition e).market_value = 0 := by simp [mkPosition, truthy, hp]
  have h3 : (mkPosition e).unrealized_pnl = 0 := by simp [mkPosition, truthy, hp]
  have h4 : (mkPosition e).unrealized_pnl_pct = 0 := by simp [mkPosition, truthy, hp]
  have h5 : (mkPosition e).daily_change = 0 := by simp [mkPosition, truthy, hp]
  rw [get_positions_eq entries hempty]
  by_cases h0 : 0 < positionsTotalValue entries
  · refine ⟨{ mkPosition e with
        weight := (mkPosition e).market_value / positionsTotalValue entries * 100 }, ?_, ?_⟩
    · rw [List.mem_mergeSort]
      have hstep := List.mem_map_of_mem
        (fun p => if 0 < positionsTotalValue entries then
          { p with weight := p.market_value / positionsTotalValue entries * 100 } else p) hmem
      simpa [if_pos h0] using hstep
    · exact ⟨h1, h2, h3, h4, h5⟩
  · refine ⟨mkPosition e, ?_, ?_⟩
    · rw [List.mem_mergeSort]
      have hstep := List.mem_map_of_mem
        (fun p => if 0 < positionsTotalValue entries then
          { p with weight := p.market_value / positionsTotalValue entries * 100 } else p) hmem
      simpa [if_neg h0] using hstep
    · exact ⟨h1, h2, h3, h4, h5⟩

/-- Witness for `missing_price_valid_zero_position`: one open entry with no
price rows at all. -/
theorem missing_price_valid_zero_position_witness :
    ∃ p ∈ get_positions [(⟨0, 1, 50, 0, true, none, none, none⟩ : PosEntry)],
      p.tickerId = (⟨0, 1, 50, 0, true, none, none, none⟩ : PosEntry).tickerId ∧
      p.market_value = 0 ∧ p.unrealized_pnl = 0 ∧
      p.unrealized_pnl_pct = 0 ∧ p.daily_change = 0 :=
  missing_price_valid_zero_position [⟨0, 1, 50, 0, true, none, none, none⟩]
    ⟨0, 1, 50, 0, true, none, none, none⟩
    (List.mem_cons_self _ _) (by norm_num) rfl rfl

/-- The trailing-window length per period (services.py 464–467):
`period_map.get(period, 365)` with `MAX` mapped to 9999 days. -/
def period_days (period : String) : ℕ :=
  if period = "1M" then 30
  else if period = "3M" then 90
  else if period = "6M" then 180
  else if period = "1Y" then 365
  else if period = "MAX" then 9999
  else 365

/-- `get_snapshot_series` (services.py 462–487), up to the selection and
ordering the query performs: the user's snapshot rows dated at least
`today − period_days(period)`, ordered by date ascending (`mergeSort` models
the query's `ORDER BY date`; the projection of each selected row onto the
`{date, value, invested, pnl, pnl_pct}` dict with two-decimal display
rounding keeps every row and is omitted). -/
def get_snapshot_series (snaps : List SnapDbRow) (user : ℕ) (today : ℤ)
    (period : String) : List SnapDbRow :=
  let start := today - (period_days period : ℤ)
  (snaps.filter (fun s => decide (s.user_id = user) && decide (start ≤ s.date))).mergeSort
    (fun a b => decide (a.date ≤ b.date))

/-- C10 counterexample: with today = day 20000, the user's only stored
snapshot, dated day 10000 (10000 days old), is excluded from the all-time
series — the `MAX` period is a finite 9999-day trailing window, not the
entire history. -/
theorem all_time_window_drops_old_snapshot :
    get_snapshot_series [⟨1, 10000, 5, 3, 2, 0⟩] 1 20000 "MAX" = [] := by
  have hmax : period_days "MAX" = 9999 := by decide
  norm_num [get_snapshot_series, hmax, List.filter_cons]

/-- C10 (amended): for every snapshot table, user and today, the all-time
(`MAX`) series is ordered by date ascending and contains exactly the user's
snapshot rows dated at least `today − 9999`: the all-time period is a
9999-day trailing window, and stored snapshots older than that are
excluded. -/
theorem all_time_series_trailing_window (snaps : List SnapDbRow) (u : ℕ) (today : ℤ) :
    (get_snapshot_series snaps u today "MAX").Pairwise (fun a b => a.date ≤ b.date) ∧
    ∀ s : SnapDbRow, s ∈ get_snapshot_series snaps u today "MAX" ↔
      (s ∈ snaps ∧ s.user_id = u ∧ today - 9999 ≤ s.date) := by
  have hmax : ((period_days "MAX" : ℕ) : ℤ) = 9999 := by decide
  constructor
  · have hs := @List.sorted_mergeSort SnapDbRow
      (fun a b : SnapDbRow => decide (a.date ≤ b.date))
      (fun a b c hab hbc => by
        simp only [decide_eq_true_eq] at hab hbc ⊢
        exact le_trans hab hbc)
      (fun a b => by
        simp only [Bool.or_eq_true, decide_eq_true_eq]
        exact le_total a.date b.date)
      (snaps.filter (fun s => decide (s.user_id = u)
        && decide (today - (period_days "MAX" : ℤ) ≤ s.date)))
    refine List.Pairwise.imp ?_ hs
    intro a b h
    exact of_decide_eq_true h
  · intro s
    simp only [get_snapshot_series, hmax, List.mem_mergeSort, List.mem_filter,
      Bool.and_eq_true, decide_eq_true_eq]

/-- Witness for `all_time_series_trailing_window` at a concrete one-row
table. -/
theorem all_time_series_trailing_window_witness :
    (get_snapshot_series [⟨1, 10000, 5, 3, 2, 0⟩] 1 20000 "MAX").Pairwise
      (fun a b => a.date ≤ b.date) ∧
    ∀ s : SnapDbRow, s ∈ get_snapshot_series [⟨1, 10000, 5, 3, 2, 0⟩] 1 20000 "MAX" ↔
      (s ∈ [(⟨1, 10000, 5, 3, 2, 0⟩ : SnapDbRow)] ∧ s.user_id = 1 ∧ 20000 - 9999 ≤ s.date) :=
  all_time_series_trailing_window [⟨1, 10000, 5, 3, 2, 0⟩] 1 20000
